import Mathlib

/-!
Verification of the DecentralizedTimeCapsule repository.

Part 1 embeds the on-chain ledger module
`src/move/time_capsule/sources/time_capsule.move`.  Move's global storage at
the module address `@time_capsule` is passed explicitly as an
`Option Capsules` value (`none` = resource not published), an aborting entry
function returns `Except MoveError`, and a successful mutating call returns
the new resource value.  Move `u64` values are modelled as `Nat` (the counter
and timestamps never approach `2^64` in any reachable state considered here),
`address` as `Nat`, and Move `String` as its list of UTF-8 byte values
(`List Nat`).

Part 2 (further below) embeds the content codec
`src/frontend/src/utils/crypto.js`.
-/

set_option autoImplicit false

/-- One stored capsule, mirroring `struct Capsule` of the Move module. -/
structure Capsule where
  id : Nat
  sender : Nat
  receiver : Nat
  unlock_time : Nat
  encrypted_hex : List Nat
  content_type : List Nat
deriving DecidableEq, Repr

/-- The singleton resource `struct Capsules` held at `@time_capsule`. -/
structure Capsules where
  items : List Capsule
  next_id : Nat
deriving DecidableEq, Repr

/-- Abort reasons of the Move module.  `unauthorized`, `notInitialized` and
`unlockTimeNotFuture` are the explicit abort codes 1, 2, 3 of the source;
`alreadyInitialized` is the builtin abort of `move_to` on an existing
resource; `missingStore` is the builtin abort of `borrow_global` on an absent
resource; `notFound` is the builtin abort of a vector access out of range. -/
inductive MoveError where
  | unauthorized
  | notInitialized
  | unlockTimeNotFuture
  | alreadyInitialized
  | missingStore
  | notFound
deriving DecidableEq, Repr

/-- The byte table `b"0123456789abcdef"` of `bytes_to_hex_string`. -/
def hex_chars : List Nat :=
  [48, 49, 50, 51, 52, 53, 54, 55, 56, 57, 97, 98, 99, 100, 101, 102]

/-- `bytes_to_hex_string` of the Move module: each byte becomes the table
entries for its high and low nibble, in that order. -/
def bytes_to_hex_string : List Nat → List Nat
  | [] => []
  | b :: rest =>
      hex_chars.getD (b / 16) 0 :: hex_chars.getD (b % 16) 0 ::
        bytes_to_hex_string rest

/-- `hex_char_to_value` of the Move module (invalid characters map to 0). -/
def hex_char_to_value (c : Nat) : Nat :=
  if 48 ≤ c ∧ c ≤ 57 then c - 48
  else if 97 ≤ c ∧ c ≤ 102 then c - 97 + 10
  else if 65 ≤ c ∧ c ≤ 70 then c - 65 + 10
  else 0

/-- `hex_string_to_bytes` of the Move module: pairs of characters are folded
into bytes left to right.  On an odd-length input the source's
`vector::borrow(hex_bytes, i + 1)` aborts out of range, modelled by `none`. -/
def hex_string_to_bytes : List Nat → Option (List Nat)
  | [] => some []
  | [_] => none
  | h :: l :: rest =>
      (hex_string_to_bytes rest).map
        (fun r => (hex_char_to_value h * 16 + hex_char_to_value l) :: r)

/-- `init_storage`: aborts with code 1 unless the signer is the module owner
`@time_capsule` (the `owner` parameter); then `move_to` publishes the empty
store, aborting if the resource already exists. -/
def init_storage (owner admin : Nat) (store : Option Capsules) :
    Except MoveError Capsules :=
  if admin = owner then
    match store with
    | none => .ok { items := [], next_id := 0 }
    | some _ => .error .alreadyInitialized
  else .error .unauthorized

/-- `create_capsule`: aborts with code 2 if the store is absent, with code 3
unless `unlock_time > now`; otherwise appends a capsule carrying the hex
encoding of `encrypted` with id `next_id`, and increments `next_id`. -/
def create_capsule (sender receiver unlock_time : Nat) (encrypted : List Nat)
    (content_type : List Nat) (now : Nat) (store : Option Capsules) :
    Except MoveError Capsules :=
  match store with
  | none => .error .notInitialized
  | some s =>
      if unlock_time > now then
        .ok { items := s.items ++
                [{ id := s.next_id, sender := sender, receiver := receiver,
                   unlock_time := unlock_time,
                   encrypted_hex := bytes_to_hex_string encrypted,
                   content_type := content_type }],
              next_id := s.next_id + 1 }
      else .error .unlockTimeNotFuture

/-- `get_capsules_len`: the number of stored capsules. -/
def get_capsules_len (store : Option Capsules) : Except MoveError Nat :=
  match store with
  | none => .error .missingStore
  | some s => .ok s.items.length

/-- `capsule_meta`: the public metadata of the capsule at index `id`; the
vector access aborts when `id` is out of range.  Note the function takes no
caller identity and no clock. -/
def capsule_meta (store : Option Capsules) (id : Nat) :
    Except MoveError (Nat × Nat × Nat × List Nat) :=
  match store with
  | none => .error .missingStore
  | some s =>
      if h : id < s.items.length then
        let c := s.items.get ⟨id, h⟩
        .ok (c.sender, c.receiver, c.unlock_time, c.content_type)
      else .error .notFound

/-- `reveal_encrypted`: the stored hex string when the clock has reached the
unlock time and the caller is the receiver or the sender, the empty string
otherwise; the vector borrow aborts when `id` is out of range. -/
def reveal_encrypted (caller id now : Nat) (store : Option Capsules) :
    Except MoveError (List Nat) :=
  match store with
  | none => .error .missingStore
  | some s =>
      if h : id < s.items.length then
        let cap := s.items.get ⟨id, h⟩
        if now ≥ cap.unlock_time ∧ (caller = cap.receiver ∨ caller = cap.sender)
        then .ok cap.encrypted_hex
        else .ok []
      else .error .notFound

/-- `reveal_encrypted_bytes`: same gate as `reveal_encrypted` but the stored
hex string is decoded back to bytes (whose internal vector borrow aborts on an
odd-length string). -/
def reveal_encrypted_bytes (caller id now : Nat) (store : Option Capsules) :
    Except MoveError (List Nat) :=
  match store with
  | none => .error .missingStore
  | some s =>
      if h : id < s.items.length then
        let cap := s.items.get ⟨id, h⟩
        if now ≥ cap.unlock_time ∧ (caller = cap.receiver ∨ caller = cap.sender)
        then
          match hex_string_to_bytes cap.encrypted_hex with
          | some bs => .ok bs
          | none => .error .notFound
        else .ok []
      else .error .notFound

/-- The arguments of one `create_capsule` call, together with the ledger
clock value observed during that call. -/
structure CreateReq where
  sender : Nat
  receiver : Nat
  unlock_time : Nat
  encrypted : List Nat
  content_type : List Nat
  now : Nat
deriving Repr

/-- Run a sequence of `create_capsule` calls against an initialized store,
stopping at the first abort. -/
def run_creates : List CreateReq → Capsules → Except MoveError Capsules
  | [], s => .ok s
  | r :: rs, s =>
      match create_capsule r.sender r.receiver r.unlock_time r.encrypted
          r.content_type r.now (some s) with
      | .error e => .error e
      | .ok s1 => run_creates rs s1

/-- A sample capsule used by witness theorems. -/
def sampleCapsule : Capsule :=
  { id := 0, sender := 3, receiver := 4, unlock_time := 60,
    encrypted_hex := [97, 98], content_type := [116] }

/-- A sample one-capsule store used by witness theorems. -/
def sampleStore : Capsules :=
  { items := [sampleCapsule], next_id := 1 }

/-- The empty just-initialized store, used by witness theorems. -/
def emptyStore : Capsules :=
  { items := [], next_id := 0 }

/-- The store expected after one successful `create_capsule 3 4 11 [255] [116]`
call at clock 10 on the empty store, used by witness theorems. -/
def oneCreateStore : Capsules :=
  { items := [{ id := 0, sender := 3, receiver := 4, unlock_time := 11,
                encrypted_hex := bytes_to_hex_string [255],
                content_type := [116] }],
    next_id := 1 }

/-- A store with a nonzero counter, used by witness theorems. -/
def counterStore : Capsules :=
  { items := [], next_id := 4 }

/-- The store expected after one successful `create_capsule 3 4 20 [1] [116]`
call at clock 5 on `counterStore`, used by witness theorems. -/
def counterStoreAfter : Capsules :=
  { items := [{ id := 4, sender := 3, receiver := 4, unlock_time := 20,
                encrypted_hex := bytes_to_hex_string [1],
                content_type := [116] }],
    next_id := 5 }

/-- The byte sample for the C4 witness, covering 0, a low nibble boundary and
255. -/
def c4Bytes : List Nat := [0, 15, 16, 255]

/-- The store expected after `create_capsule 3 4 11 c4Bytes [116]` at clock 10
on the empty store. -/
def c4Store : Capsules :=
  { items := [{ id := 0, sender := 3, receiver := 4, unlock_time := 11,
                encrypted_hex := bytes_to_hex_string c4Bytes,
                content_type := [116] }],
    next_id := 1 }

/-- The capsule that a successful `create_capsule` call appends. -/
def appendedCapsule (s : Capsules) (sender receiver t : Nat)
    (b ct : List Nat) : Capsule :=
  { id := s.next_id, sender := sender, receiver := receiver,
    unlock_time := t, encrypted_hex := bytes_to_hex_string b,
    content_type := ct }

/-- The store that a successful `create_capsule` call leaves behind. -/
def appendedStore (s : Capsules) (sender receiver t : Nat)
    (b ct : List Nat) : Capsules :=
  { items := s.items ++ [appendedCapsule s sender receiver t b ct],
    next_id := s.next_id + 1 }

/-- Witness data: two concrete create requests. -/
def c3Reqs : List CreateReq :=
  [{ sender := 3, receiver := 4, unlock_time := 11, encrypted := [1],
     content_type := [116], now := 10 },
   { sender := 5, receiver := 6, unlock_time := 12, encrypted := [2],
     content_type := [116], now := 10 }]

/-- The store after running `c3Reqs` on the empty store. -/
def twoStore : Capsules :=
  { items := [{ id := 0, sender := 3, receiver := 4, unlock_time := 11,
                encrypted_hex := bytes_to_hex_string [1],
                content_type := [116] },
              { id := 1, sender := 5, receiver := 6, unlock_time := 12,
                encrypted_hex := bytes_to_hex_string [2],
                content_type := [116] }],
    next_id := 2 }

/-!
### Part 2: the content codec of `src/frontend/src/utils/crypto.js`

`encryptText` derives a key from the passphrase and a random 16-byte salt,
encrypts the UTF-8 text with AES-256 in CBC mode and PKCS7 padding under a
random 16-byte IV, and returns the lowercase hex encoding of
`salt ++ iv ++ ciphertext`.  `decryptText` parses the hex, splits off the
16-byte salt and IV, re-derives the key, CBC-decrypts, strips the padding and
fails when the result is empty.

Strings are modelled as their byte sequences (`List Nat`).  The AES-256 block
primitive and the PBKDF2 key derivation live in the `crypto-js` library and
are not part of this repository's sources; following the spec they are taken
as parameters: an arbitrary keyed block permutation (`BlockCipher`) and an
arbitrary deterministic derivation function `kdf`.  The salt and IV, produced
by `CryptoJS.lib.WordArray.random`, are explicit arguments.  The `catch`
blocks of the source rethrow every failure as an encryption/decryption
failure; the distinct `CryptoError` constructors record the inner cause.
-/

/-- Failure causes inside `encryptText` / `decryptText`; the source wraps
each of them into its thrown `Encryption failed` / `Decryption failed`
error. -/
inductive CryptoError where
  | inputRequired
  | malformedHex
  | decryptionFailed
deriving DecidableEq, Repr

/-- Modelled from the spec: the AES-256 block primitive used through
`CryptoJS.AES` is abstracted as a keyed block permutation on 16-byte blocks
that preserves block length and byte range. -/
structure BlockCipher where
  enc : List Nat → List Nat → List Nat
  dec : List Nat → List Nat → List Nat
  dec_enc : ∀ key b, b.length = 16 → dec key (enc key b) = b
  enc_len : ∀ key b, (enc key b).length = b.length
  enc_bytes : ∀ key b, (∀ x ∈ b, x < 256) → ∀ x ∈ enc key b, x < 256

/-- Bytewise XOR of two equal-length byte sequences, as CBC chaining does. -/
def xorBytes (p b : List Nat) : List Nat :=
  List.zipWith (fun x y => x ^^^ y) p b

/-- PKCS7 padding as applied by `CryptoJS.pad.Pkcs7.pad`: append `n` copies
of `n` where `n = 16 - len % 16` (a full block when the length is a multiple
of 16). -/
def pkcs7Pad (bs : List Nat) : List Nat :=
  bs ++ List.replicate (16 - bs.length % 16) (16 - bs.length % 16)

/-- PKCS7 stripping as applied by `CryptoJS.pad.Pkcs7.unpad`: read the final
byte `n` and drop the last `n` bytes, with no validation of the padding
bytes. -/
def pkcs7Unpad (bs : List Nat) : List Nat :=
  match bs.getLast? with
  | none => []
  | some n => bs.take (bs.length - n)

/-- Structural worker for `toBlocks`; the fuel bounds the list length so the
recursion is structural and computes by kernel reduction. -/
def toBlocksAux : Nat → List Nat → List (List Nat)
  | _, [] => []
  | 0, _ :: _ => []
  | fuel + 1, a :: l => ((a :: l).take 16) :: toBlocksAux fuel ((a :: l).drop 16)

/-- Split a byte sequence into successive 16-byte blocks (the last block may
be shorter when the length is not a multiple of 16). -/
def toBlocks (l : List Nat) : List (List Nat) :=
  toBlocksAux l.length l

/-- CBC encryption over a block list: each block is XORed with the previous
ciphertext block (initially the IV) and then enciphered. -/
def cbcEncBlocks (E : List Nat → List Nat → List Nat) (key : List Nat) :
    List Nat → List (List Nat) → List (List Nat)
  | _, [] => []
  | prev, b :: bs =>
      E key (xorBytes prev b) :: cbcEncBlocks E key (E key (xorBytes prev b)) bs

/-- CBC decryption over a block list: each block is deciphered and XORed with
the previous ciphertext block (initially the IV). -/
def cbcDecBlocks (D : List Nat → List Nat → List Nat) (key : List Nat) :
    List Nat → List (List Nat) → List (List Nat)
  | _, [] => []
  | prev, c :: cs => xorBytes prev (D key c) :: cbcDecBlocks D key c cs

/-- One lowercase hex digit character, as `toString(16)` produces. -/
def jsHexDigit (n : Nat) : Nat :=
  if n < 10 then 48 + n else 87 + n

/-- `CryptoJS.enc.Hex.stringify`: two lowercase hex digit characters per
byte, high nibble first. -/
def jsHexStringify : List Nat → List Nat
  | [] => []
  | b :: rest => jsHexDigit (b / 16) :: jsHexDigit (b % 16) :: jsHexStringify rest

/-- Whether a character code is a hex digit accepted by `parseInt(_, 16)`. -/
def isJsHexDigit (c : Nat) : Bool :=
  (48 ≤ c && c ≤ 57) || (97 ≤ c && c ≤ 102) || (65 ≤ c && c ≤ 70)

/-- The numeric value of a hex digit character. -/
def jsHexVal (c : Nat) : Nat :=
  if 48 ≤ c ∧ c ≤ 57 then c - 48
  else if 97 ≤ c ∧ c ≤ 102 then c - 87
  else if 65 ≤ c ∧ c ≤ 70 then c - 55
  else 0

/-- `CryptoJS.enc.Hex.parse` restricted to well-formed input: pairs of hex
digit characters become bytes; an odd length or a non-hex character yields
`none` (the source would instead produce `NaN`-polluted words that fail
downstream). -/
def jsHexParse : List Nat → Option (List Nat)
  | [] => some []
  | [_] => none
  | h :: l :: rest =>
      if isJsHexDigit h && isJsHexDigit l then
        (jsHexParse rest).map (fun r => (jsHexVal h * 16 + jsHexVal l) :: r)
      else none

/-- `encryptText` of `crypto.js`: reject empty text or passphrase, derive the
key from the passphrase and salt, CBC-encrypt the PKCS7-padded text under the
IV, and hex-encode `salt ++ iv ++ ciphertext`. -/
def encryptText (C : BlockCipher) (kdf : List Nat → List Nat → List Nat)
    (text pass salt iv : List Nat) : Except CryptoError (List Nat) :=
  if text = [] ∨ pass = [] then .error .inputRequired
  else
    .ok (jsHexStringify (salt ++ iv ++
      (cbcEncBlocks C.enc (kdf pass salt) iv (toBlocks (pkcs7Pad text))).flatten))

/-- `decryptText` of `crypto.js`: reject empty input, parse the hex, split
off the 16-byte salt and IV, re-derive the key, CBC-decrypt, strip the PKCS7
padding, and fail exactly when the resulting text is empty. -/
def decryptText (C : BlockCipher) (kdf : List Nat → List Nat → List Nat)
    (encryptedHex pass : List Nat) : Except CryptoError (List Nat) :=
  if encryptedHex = [] ∨ pass = [] then .error .inputRequired
  else
    match jsHexParse encryptedHex with
    | none => .error .malformedHex
    | some combined =>
        let key := kdf pass (combined.take 16)
        let plain := pkcs7Unpad
          ((cbcDecBlocks C.dec key ((combined.drop 16).take 16)
            (toBlocks (combined.drop 32))).flatten)
        if plain = [] then .error .decryptionFailed else .ok plain

/-- The identity block permutation: a legitimate `BlockCipher` instance used
to instantiate theorems at concrete inputs. -/
def idCipher : BlockCipher where
  enc := fun _ b => b
  dec := fun _ b => b
  dec_enc := fun _ _ _ => rfl
  enc_len := fun _ _ => rfl
  enc_bytes := fun _ _ h => h

/-- A trivial key derivation function for concrete instantiations. -/
def constKdf : List Nat → List Nat → List Nat := fun _ _ => []

/-- The hex string produced by encrypting fifteen `A` bytes under passphrase
`k`, salt and IV of sixteen `0x30` bytes, with the identity block cipher. -/
def c5GoodHex : List Nat :=
  jsHexStringify (List.replicate 32 48 ++ (List.replicate 15 113 ++ [49]))

/-- `c5GoodHex` with one ciphertext hex character flipped (position 65, the
low nibble of the first ciphertext byte). -/
def c5TamperedHex : List Nat := c5GoodHex.set 65 48

/-!
### Theorems

First the ledger (claims about initialization, creation, metadata, the hex
codec and the gated reveal), then the content codec.
-/

/-- Claim C7: `init_storage` creates the empty store (empty capsule list, next
id 0) exactly once: it fails with `Unauthorized` when the caller is not the
designated owner identity, and fails with `AlreadyInitialized` when called a
second time after a successful initialization. -/
theorem init_storage_once (owner caller : Nat) (store : Option Capsules) :
    (caller ≠ owner → init_storage owner caller store = .error .unauthorized) ∧
    init_storage owner owner none = .ok { items := [], next_id := 0 } ∧
    (∀ s : Capsules,
      init_storage owner owner (some s) = .error .alreadyInitialized) := by
  refine ⟨fun h => ?_, ?_, fun s => ?_⟩
  · simp [init_storage, h]
  · simp [init_storage]
  · simp [init_storage]

/-- Witness for `init_storage_once` at owner 7, caller 5 and a store holding
one capsule. -/
theorem init_storage_once_witness :
    init_storage 7 5 none = .error .unauthorized ∧
    init_storage 7 7 none = .ok { items := [], next_id := 0 } ∧
    init_storage 7 7 (some { items := [], next_id := 0 }) =
      .error .alreadyInitialized := by
  have h := init_storage_once 7 5 none
  have h' := init_storage_once 7 7 none
  exact ⟨h.1 (by decide), h'.2.1, h'.2.2 { items := [], next_id := 0 }⟩

/-- Claim C8: for every stored capsule id, `capsule_meta id` returns that
capsule's `(sender, receiver, unlockTime, contentType)` — the function takes
no caller identity and no clock, so there is no authorization or time gating —
and for every id out of range it fails with the out-of-range abort (the
`NotFound` of the spec). -/
theorem capsule_meta_public (s : Capsules) (id : Nat) :
    (∀ h : id < s.items.length,
      capsule_meta (some s) id =
        .ok ((s.items.get ⟨id, h⟩).sender, (s.items.get ⟨id, h⟩).receiver,
          (s.items.get ⟨id, h⟩).unlock_time,
          (s.items.get ⟨id, h⟩).content_type)) ∧
    (s.items.length ≤ id → capsule_meta (some s) id = .error .notFound) := by
  constructor
  · intro h
    simp [capsule_meta, h]
  · intro h
    simp [capsule_meta, Nat.not_lt.mpr h]

/-- Witness for `capsule_meta_public` on a one-capsule store, at the stored
index 0 and the out-of-range index 1. -/
theorem capsule_meta_public_witness :
    capsule_meta (some sampleStore) 0 = .ok (3, 4, 60, [116]) ∧
    capsule_meta (some sampleStore) 1 = .error .notFound := by
  have h := capsule_meta_public sampleStore
  exact ⟨(h 0).1 (by decide), (h 1).2 (by decide)⟩

/-- Claim C2: for every initialized store, `create_capsule` with
`unlock_time <= now` fails with `UnlockTimeNotFuture`, and `create_capsule`
with `unlock_time = now + 1` succeeds. -/
theorem create_capsule_future_only (sender receiver unlock_time : Nat)
    (encrypted content_type : List Nat) (now : Nat) (s : Capsules) :
    (unlock_time ≤ now →
      create_capsule sender receiver unlock_time encrypted content_type now
        (some s) = .error .unlockTimeNotFuture) ∧
    create_capsule sender receiver (now + 1) encrypted content_type now
      (some s) =
      .ok { items := s.items ++
              [{ id := s.next_id, sender := sender, receiver := receiver,
                 unlock_time := now + 1,
                 encrypted_hex := bytes_to_hex_string encrypted,
                 content_type := content_type }],
            next_id := s.next_id + 1 } := by
  constructor
  · intro h
    simp [create_capsule, Nat.not_lt.mpr h]
  · simp [create_capsule]

/-- Witness for `create_capsule_future_only` at a concrete store and clock. -/
theorem create_capsule_future_only_witness :
    create_capsule 3 4 10 [255] [116] 10 (some emptyStore) =
      .error .unlockTimeNotFuture ∧
    create_capsule 3 4 11 [255] [116] 10 (some emptyStore) =
      .ok oneCreateStore := by
  have h10 := create_capsule_future_only 3 4 10 [255] [116] 10 emptyStore
  have h11 := create_capsule_future_only 3 4 11 [255] [116] 10 emptyStore
  exact ⟨h10.1 (by decide), h11.2⟩

/-- Claim C9: `create_capsule` is atomic: on an uninitialized store it fails
with `NotInitialized`, on a non-future unlock time it fails with
`UnlockTimeNotFuture` — in both failing cases producing no new state, so the
store is exactly as before the call — and on success it returns the previous
store with exactly one capsule appended and the counter incremented by one. -/
theorem create_capsule_atomic (sender receiver unlock_time : Nat)
    (encrypted content_type : List Nat) (now : Nat) :
    create_capsule sender receiver unlock_time encrypted content_type now
      none = .error .notInitialized ∧
    ∀ s : Capsules,
      (unlock_time ≤ now →
        create_capsule sender receiver unlock_time encrypted content_type now
          (some s) = .error .unlockTimeNotFuture) ∧
      (now < unlock_time →
        create_capsule sender receiver unlock_time encrypted content_type now
          (some s) =
          .ok { items := s.items ++
                  [{ id := s.next_id, sender := sender, receiver := receiver,
                     unlock_time := unlock_time,
                     encrypted_hex := bytes_to_hex_string encrypted,
                     content_type := content_type }],
                next_id := s.next_id + 1 }) := by
  refine ⟨rfl, fun s => ⟨fun h => ?_, fun h => ?_⟩⟩
  · simp [create_capsule, Nat.not_lt.mpr h]
  · simp [create_capsule, h]

/-- Witness for `create_capsule_atomic`: all three branches at concrete
inputs. -/
theorem create_capsule_atomic_witness :
    create_capsule 3 4 20 [1] [116] 5 none = .error .notInitialized ∧
    create_capsule 3 4 5 [1] [116] 5 (some counterStore) =
      .error .unlockTimeNotFuture ∧
    create_capsule 3 4 20 [1] [116] 5 (some counterStore) =
      .ok counterStoreAfter := by
  have h := create_capsule_atomic 3 4 20 [1] [116] 5
  have h' := create_capsule_atomic 3 4 5 [1] [116] 5
  exact ⟨h.1, (h'.2 counterStore).1 (by decide),
    (h.2 counterStore).2 (by decide)⟩

/-- Each nibble value is recovered from its table character. -/
theorem hex_char_value_of_nibble :
    ∀ n, n < 16 → hex_char_to_value (hex_chars.getD n 0) = n := by decide

/-- `hex_string_to_bytes` inverts `bytes_to_hex_string` on byte sequences. -/
theorem hex_decode_encode (b : List Nat) (hb : ∀ x ∈ b, x < 256) :
    hex_string_to_bytes (bytes_to_hex_string b) = some b := by
  induction b with
  | nil => rfl
  | cons x xs ih =>
      have hx : x < 256 := hb x (List.mem_cons_self _ _)
      have hxs : ∀ y ∈ xs, y < 256 := fun y hy => hb y (List.mem_cons_of_mem _ hy)
      have h1 : x / 16 < 16 := by omega
      have h2 : x % 16 < 16 := by omega
      simp only [bytes_to_hex_string, hex_string_to_bytes, ih hxs, Option.map_some,
        hex_char_value_of_nibble _ h1, hex_char_value_of_nibble _ h2,
        Option.some.injEq, List.cons.injEq]
      rw [show x / 16 * 16 + x % 16 = x by omega]
      rfl

/-- Claim C1: for a stored capsule with unlock time `T` and non-empty stored
hex ciphertext, `reveal_encrypted caller id` returns that non-empty hex
ciphertext iff `now ≥ T` and `caller` equals the capsule's sender or receiver;
in every other combination of time and caller it returns the empty string. -/
theorem reveal_encrypted_gating (s : Capsules) (id caller now : Nat)
    (h : id < s.items.length)
    (hne : (s.items.get ⟨id, h⟩).encrypted_hex ≠ []) :
    reveal_encrypted caller id now (some s) =
      .ok (if now ≥ (s.items.get ⟨id, h⟩).unlock_time ∧
              (caller = (s.items.get ⟨id, h⟩).sender ∨
                caller = (s.items.get ⟨id, h⟩).receiver)
           then (s.items.get ⟨id, h⟩).encrypted_hex else []) ∧
    ((reveal_encrypted caller id now (some s) =
        .ok (s.items.get ⟨id, h⟩).encrypted_hex) ↔
      (now ≥ (s.items.get ⟨id, h⟩).unlock_time ∧
        (caller = (s.items.get ⟨id, h⟩).sender ∨
          caller = (s.items.get ⟨id, h⟩).receiver))) := by
  have hr : reveal_encrypted caller id now (some s) =
      if now ≥ (s.items.get ⟨id, h⟩).unlock_time ∧
          (caller = (s.items.get ⟨id, h⟩).receiver ∨
            caller = (s.items.get ⟨id, h⟩).sender)
      then .ok (s.items.get ⟨id, h⟩).encrypted_hex
      else .ok ([] : List Nat) := by
    simp [reveal_encrypted, h]
  by_cases hc : now ≥ (s.items.get ⟨id, h⟩).unlock_time ∧
      (caller = (s.items.get ⟨id, h⟩).sender ∨
        caller = (s.items.get ⟨id, h⟩).receiver)
  · have hc' : now ≥ (s.items.get ⟨id, h⟩).unlock_time ∧
        (caller = (s.items.get ⟨id, h⟩).receiver ∨
          caller = (s.items.get ⟨id, h⟩).sender) := ⟨hc.1, hc.2.symm⟩
    rw [hr, if_pos hc', if_pos hc]
    exact ⟨rfl, ⟨fun _ => hc, fun _ => rfl⟩⟩
  · have hc' : ¬ (now ≥ (s.items.get ⟨id, h⟩).unlock_time ∧
        (caller = (s.items.get ⟨id, h⟩).receiver ∨
          caller = (s.items.get ⟨id, h⟩).sender)) := by
      intro hx
      exact hc ⟨hx.1, hx.2.symm⟩
    rw [hr, if_neg hc', if_neg hc]
    refine ⟨rfl, ⟨fun hx => ?_, fun hx => absurd hx hc⟩⟩
    exact absurd (Except.ok.inj hx).symm hne

/-- Witness for `reveal_encrypted_gating`: on `sampleStore` (unlock time 60,
sender 3, receiver 4, stored hex `"ab"`), the receiver at time 60 gets the
hex, and a stranger at time 60 gets the empty string. -/
theorem reveal_encrypted_gating_witness :
    reveal_encrypted 4 0 60 (some sampleStore) = .ok [97, 98] ∧
    reveal_encrypted 9 0 60 (some sampleStore) = .ok [] := by
  have h4 := reveal_encrypted_gating sampleStore 0 4 60 (by decide) (by decide)
  have h9 := reveal_encrypted_gating sampleStore 0 9 60 (by decide) (by decide)
  constructor
  · exact h4.2.mpr (by decide)
  · have := h9.1
    rw [if_neg (by decide)] at this
    exact this

/-- A successful `create_capsule` yields exactly `appendedStore`. -/
theorem create_capsule_ok (sender receiver t : Nat) (b ct : List Nat)
    (now : Nat) (s : Capsules) (hfut : now < t) :
    create_capsule sender receiver t b ct now (some s) =
      .ok (appendedStore s sender receiver t b ct) := by
  simp [create_capsule, hfut, appendedStore, appendedCapsule]

/-- Claim C4: hex decoding is the exact inverse of hex encoding — for all byte
sequences `b`, `hex_string_to_bytes (bytes_to_hex_string b) = b` — so
`reveal_encrypted_bytes` returns exactly the `cipherBytes` passed to
`create_capsule` when the gating conditions hold. -/
theorem hex_round_trip_reveal_bytes (b : List Nat) (hb : ∀ x ∈ b, x < 256) :
    hex_string_to_bytes (bytes_to_hex_string b) = some b ∧
    ∀ sender receiver t ct now s s',
      create_capsule sender receiver t b ct now (some s) = .ok s' →
      ∀ now' caller, t ≤ now' → (caller = sender ∨ caller = receiver) →
        reveal_encrypted_bytes caller s.items.length now' (some s') = .ok b := by
  refine ⟨hex_decode_encode b hb, ?_⟩
  intro sender receiver t ct now s s' hcreate now' caller ht hcaller
  by_cases hfut : now < t
  · rw [create_capsule_ok sender receiver t b ct now s hfut] at hcreate
    have hs' : s' = appendedStore s sender receiver t b ct :=
      (Except.ok.inj hcreate).symm
    subst hs'
    have hlen : s.items.length < (appendedStore s sender receiver t b ct).items.length := by
      simp [appendedStore]
    have hget : (appendedStore s sender receiver t b ct).items.get
        ⟨s.items.length, hlen⟩ = appendedCapsule s sender receiver t b ct := by
      simp [appendedStore, List.get_eq_getElem, List.getElem_append_right]
    simp only [reveal_encrypted_bytes, hlen, dif_pos, List.get_eq_getElem] at hget ⊢
    rw [hget]
    rw [if_pos ⟨ht, hcaller.symm⟩]
    have hhex : (appendedCapsule s sender receiver t b ct).encrypted_hex =
        bytes_to_hex_string b := rfl
    rw [hhex, hex_decode_encode b hb]
  · simp [create_capsule, hfut] at hcreate

/-- Witness for `hex_round_trip_reveal_bytes`: bytes `[0, 15, 16, 255]` are
recovered both by direct decode and through `reveal_encrypted_bytes` on the
store created from them. -/
theorem hex_round_trip_reveal_bytes_witness :
    hex_string_to_bytes (bytes_to_hex_string c4Bytes) = some c4Bytes ∧
    reveal_encrypted_bytes 4 0 11 (some c4Store) = .ok c4Bytes := by
  have h := hex_round_trip_reveal_bytes c4Bytes (by decide)
  exact ⟨h.1, h.2 3 4 11 [116] 10 emptyStore c4Store rfl 11 4 (by decide)
    (Or.inr rfl)⟩

/-- A successful `create_capsule` on an initialized store can only have
produced `appendedStore`. -/
theorem create_capsule_ok_inv (sender receiver t : Nat) (b ct : List Nat)
    (now : Nat) (s s1 : Capsules)
    (h : create_capsule sender receiver t b ct now (some s) = .ok s1) :
    s1 = appendedStore s sender receiver t b ct := by
  by_cases hfut : now < t
  · rw [create_capsule_ok sender receiver t b ct now s hfut] at h
    exact (Except.ok.inj h).symm
  · simp [create_capsule, hfut] at h

/-- Running a batch of successful creates appends ids
`next_id, next_id + 1, ...` in order and advances the counter by the batch
length. -/
theorem run_creates_spec (reqs : List CreateReq) :
    ∀ s s' : Capsules, run_creates reqs s = .ok s' →
      s'.items.map (fun c => c.id) =
        s.items.map (fun c => c.id) ++
          (List.range reqs.length).map (fun i => i + s.next_id) ∧
      s'.next_id = s.next_id + reqs.length := by
  induction reqs with
  | nil =>
      intro s s' h
      have hs : s = s' := Except.ok.inj h
      subst hs
      simp
  | cons r rs ih =>
      intro s s' h
      rw [run_creates] at h
      cases hc : create_capsule r.sender r.receiver r.unlock_time r.encrypted
          r.content_type r.now (some s) with
      | error e => rw [hc] at h; cases h
      | ok s1 =>
          rw [hc] at h
          have hs1 := create_capsule_ok_inv r.sender r.receiver r.unlock_time
            r.encrypted r.content_type r.now s s1 hc
          subst hs1
          obtain ⟨hmap, hnext⟩ := ih _ _ h
      -- items and counter of the intermediate store
          have hmap1 : (appendedStore s r.sender r.receiver r.unlock_time
              r.encrypted r.content_type).items.map (fun c => c.id) =
              s.items.map (fun c => c.id) ++ [s.next_id] := by
            simp [appendedStore, appendedCapsule]
          have hnext1 : (appendedStore s r.sender r.receiver r.unlock_time
              r.encrypted r.content_type).next_id = s.next_id + 1 := rfl
          rw [hmap1, hnext1] at hmap
          rw [hnext1] at hnext
          constructor
          · rw [hmap]
            have hr : (List.range (rs.length + 1)).map (fun i => i + s.next_id) =
                s.next_id :: (List.range rs.length).map
                  (fun i => i + (s.next_id + 1)) := by
              rw [List.range_succ_eq_map]
              simp only [List.map_cons, List.map_map, Nat.zero_add]
              refine congrArg _ (List.map_congr_left fun a _ => ?_)
              simp [Function.comp]
              omega
            simp only [List.length_cons, hr, List.append_assoc,
              List.singleton_append]
          · simp only [List.length_cons]
            omega

/-- Claim C3: starting from the store produced by initialization, any
sequence of `N` successful `create_capsule` calls assigns to the stored
capsules exactly the ids `0 .. N-1` in call order — unique, gapless, starting
at 0. -/
theorem create_ids_contiguous (owner : Nat) (reqs : List CreateReq)
    (s0 s' : Capsules) (hinit : init_storage owner owner none = .ok s0)
    (hrun : run_creates reqs s0 = .ok s') :
    s'.items.map (fun c => c.id) = List.range reqs.length := by
  have hs0 : s0 = { items := [], next_id := 0 } := by
    simp [init_storage] at hinit
    exact hinit.symm
  subst hs0
  have h := (run_creates_spec reqs _ _ hrun).1
  simpa using h

/-- Witness for `create_ids_contiguous` on two concrete creates. -/
theorem create_ids_contiguous_witness :
    twoStore.items.map (fun c => c.id) = List.range 2 :=
  create_ids_contiguous 7 c3Reqs emptyStore twoStore rfl rfl

/-- Claim C10: after initialization and any sequence of successful
`create_capsule` calls, the counter `next_id` equals the number of stored
capsules, and the capsule stored at each position `i` has id `i`. -/
theorem store_counter_id_invariant (owner : Nat) (reqs : List CreateReq)
    (s0 s' : Capsules) (hinit : init_storage owner owner none = .ok s0)
    (hrun : run_creates reqs s0 = .ok s') :
    s'.next_id = s'.items.length ∧
    ∀ i (h : i < s'.items.length), (s'.items.get ⟨i, h⟩).id = i := by
  have hs0 : s0 = { items := [], next_id := 0 } := by
    simp [init_storage] at hinit
    exact hinit.symm
  subst hs0
  obtain ⟨hmap, hnext⟩ := run_creates_spec reqs _ _ hrun
  simp only [List.map_nil, List.nil_append, Nat.zero_add] at hmap hnext
  have hmap' : s'.items.map (fun c => c.id) = List.range reqs.length := by
    simpa using hmap
  have hlen : s'.items.length = reqs.length := by
    have := congrArg List.length hmap'
    simpa using this
  constructor
  · omega
  · intro i h
    have h' : i < reqs.length := by omega
    have := congrArg (fun l => l.getD i 0) hmap'
    simp only [List.getD_eq_getElem?_getD] at this
    rw [List.getElem?_map, List.getElem?_range h'] at this
    rw [List.getElem?_eq_getElem h] at this
    simpa using this

/-- Witness for `store_counter_id_invariant` on the concrete two-create run. -/
theorem store_counter_id_invariant_witness :
    twoStore.next_id = twoStore.items.length ∧
    (twoStore.items.get ⟨0, by decide⟩).id = 0 ∧
    (twoStore.items.get ⟨1, by decide⟩).id = 1 := by
  have h := store_counter_id_invariant 7 c3Reqs emptyStore twoStore rfl rfl
  exact ⟨h.1, h.2 0 (by decide), h.2 1 (by decide)⟩

/-- XOR with the same mask twice gives back the block. -/
theorem xorBytes_cancel : ∀ p b : List Nat, p.length = b.length →
    xorBytes p (xorBytes p b) = b := by
  intro p
  induction p with
  | nil =>
      intro b hb
      have : b = [] := by
        cases b with
        | nil => rfl
        | cons x xs => simp at hb
      simp [this, xorBytes]
  | cons x xs ih =>
      intro b hb
      cases b with
      | nil => simp at hb
      | cons y ys =>
          simp only [xorBytes, List.zipWith_cons_cons, List.cons.injEq]
          refine ⟨?_, ih ys (by simpa using hb)⟩
          rw [← Nat.xor_assoc, Nat.xor_self, Nat.zero_xor]

/-- The length of an XOR of blocks. -/
theorem length_xorBytes (p b : List Nat) :
    (xorBytes p b).length = min p.length b.length :=
  List.length_zipWith ..

/-- XOR keeps blocks inside the byte range. -/
theorem mem_xorBytes_lt : ∀ p b : List Nat, (∀ x ∈ p, x < 256) →
    (∀ x ∈ b, x < 256) → ∀ x ∈ xorBytes p b, x < 256 := by
  intro p
  induction p with
  | nil => intro b _ _ x hx; simp [xorBytes] at hx
  | cons a asRest ih =>
      intro b hp hb x hx
      cases b with
      | nil => simp [xorBytes] at hx
      | cons y ys =>
          simp only [xorBytes, List.zipWith_cons_cons, List.mem_cons] at hx
          rcases hx with hx | hx
          · subst hx
            have ha : a < 2 ^ 8 := hp a (List.mem_cons_self _ _)
            have hy : y < 2 ^ 8 := hb y (List.mem_cons_self _ _)
            exact Nat.xor_lt_two_pow ha hy
          · exact ih ys (fun z hz => hp z (List.mem_cons_of_mem _ hz))
              (fun z hz => hb z (List.mem_cons_of_mem _ hz)) x hx

/-- The fuel argument of `toBlocksAux` is irrelevant once it dominates the
length. -/
theorem toBlocksAux_eq : ∀ (fuel : Nat) (l : List Nat), l.length ≤ fuel →
    toBlocksAux fuel l = toBlocksAux l.length l := by
  intro fuel
  induction fuel using Nat.strong_induction_on with
  | _ fuel ih =>
      cases fuel with
      | zero =>
          intro l hl
          have h0 : l = [] := List.eq_nil_of_length_eq_zero (Nat.le_zero.mp hl)
          subst h0
          rfl
      | succ n =>
          intro l hl
          cases l with
          | nil => rfl
          | cons a t =>
              have hdrop : ((a :: t).drop 16).length ≤ t.length := by
                simp only [List.length_drop, List.length_cons]
                omega
              have ht : t.length ≤ n := by
                simp only [List.length_cons] at hl
                omega
              show ((a :: t).take 16) :: toBlocksAux n ((a :: t).drop 16) =
                toBlocksAux ((a :: t).length) (a :: t)
              rw [show (a :: t).length = t.length + 1 from rfl]
              show _ = ((a :: t).take 16) ::
                toBlocksAux t.length ((a :: t).drop 16)
              rw [ih n (Nat.lt_succ_self n) _ (le_trans hdrop ht),
                ih t.length (Nat.lt_succ_of_le ht) _ hdrop]

/-- Unfolding `toBlocks` on a non-empty list. -/
theorem toBlocks_cons (a : Nat) (l : List Nat) :
    toBlocks (a :: l) = ((a :: l).take 16) :: toBlocks ((a :: l).drop 16) := by
  show toBlocksAux ((a :: l).length) (a :: l) = _
  rw [show (a :: l).length = l.length + 1 from rfl]
  show ((a :: l).take 16) :: toBlocksAux l.length ((a :: l).drop 16) = _
  rw [toBlocks]
  congr 1
  apply toBlocksAux_eq
  simp only [List.length_drop, List.length_cons]
  omega

/-- Concatenating the blocks gives back the byte sequence (fuel version). -/
theorem flatten_toBlocks_aux : ∀ (n : Nat) (l : List Nat), l.length ≤ n →
    (toBlocks l).flatten = l := by
  intro n
  induction n with
  | zero =>
      intro l hl
      have h0 : l = [] := List.eq_nil_of_length_eq_zero (Nat.le_zero.mp hl)
      subst h0
      rfl
  | succ n ih =>
      intro l hl
      cases l with
      | nil => rfl
      | cons a t =>
          have hdl : ((a :: t).drop 16).length ≤ n := by
            simp only [List.length_drop, List.length_cons]
            simp only [List.length_cons] at hl
            omega
          rw [toBlocks_cons, List.flatten_cons, ih _ hdl,
            List.take_append_drop]

/-- Concatenating the blocks gives back the byte sequence. -/
theorem flatten_toBlocks (l : List Nat) : (toBlocks l).flatten = l :=
  flatten_toBlocks_aux l.length l (le_refl _)

/-- When the length is a multiple of 16, every block has length 16
(fuel version). -/
theorem mem_toBlocks_length16_aux : ∀ (n : Nat) (l : List Nat), l.length ≤ n →
    l.length % 16 = 0 → ∀ b ∈ toBlocks l, b.length = 16 := by
  intro n
  induction n with
  | zero =>
      intro l hl _ b hb
      have h0 : l = [] := List.eq_nil_of_length_eq_zero (Nat.le_zero.mp hl)
      subst h0
      simp [toBlocks, toBlocksAux] at hb
  | succ n ih =>
      intro l hl hmod b hb
      cases l with
      | nil => simp [toBlocks, toBlocksAux] at hb
      | cons a t =>
          rw [toBlocks_cons] at hb
          simp only [List.mem_cons] at hb
          have hlong : 16 ≤ (a :: t).length := by
            by_contra hshort
            push_neg at hshort
            have h1 := Nat.mod_eq_of_lt hshort
            simp only [List.length_cons] at h1 hmod
            omega
          rcases hb with hb | hb
          · subst hb
            simp only [List.length_take]
            simp only [List.length_cons] at hlong ⊢
            omega
          · refine ih _ ?_ ?_ b hb
            · simp only [List.length_drop, List.length_cons]
              simp only [List.length_cons] at hl
              omega
            · simp only [List.length_drop, List.length_cons]
              simp only [List.length_cons] at hmod hlong
              omega

/-- When the length is a multiple of 16, every block has length 16. -/
theorem mem_toBlocks_length16 (l : List Nat) (h : l.length % 16 = 0) :
    ∀ b ∈ toBlocks l, b.length = 16 :=
  mem_toBlocks_length16_aux l.length l (le_refl _) h

/-- Every byte of a block is a byte of the original sequence
(fuel version). -/
theorem mem_toBlocks_subset_aux : ∀ (n : Nat) (l : List Nat), l.length ≤ n →
    ∀ b ∈ toBlocks l, ∀ x ∈ b, x ∈ l := by
  intro n
  induction n with
  | zero =>
      intro l hl b hb
      have h0 : l = [] := List.eq_nil_of_length_eq_zero (Nat.le_zero.mp hl)
      subst h0
      simp [toBlocks, toBlocksAux] at hb
  | succ n ih =>
      intro l hl b hb x hx
      cases l with
      | nil => simp [toBlocks, toBlocksAux] at hb
      | cons a t =>
          rw [toBlocks_cons] at hb
          simp only [List.mem_cons] at hb
          rcases hb with hb | hb
          · subst hb
            exact List.mem_of_mem_take hx
          · have hdl : ((a :: t).drop 16).length ≤ n := by
              simp only [List.length_drop, List.length_cons]
              simp only [List.length_cons] at hl
              omega
            exact List.mem_of_mem_drop (ih _ hdl b hb x hx)

/-- Every byte of a block is a byte of the original sequence. -/
theorem mem_toBlocks_subset (l : List Nat) :
    ∀ b ∈ toBlocks l, ∀ x ∈ b, x ∈ l :=
  mem_toBlocks_subset_aux l.length l (le_refl _)

/-- `toBlocks` inverts `flatten` on lists of 16-byte blocks. -/
theorem toBlocks_flatten : ∀ bs : List (List Nat), (∀ b ∈ bs, b.length = 16) →
    toBlocks bs.flatten = bs := by
  intro bs
  induction bs with
  | nil => intro _; rfl
  | cons b rest ih =>
      intro h
      have hb : b.length = 16 := h b (List.mem_cons_self _ _)
      have hrest : ∀ c ∈ rest, c.length = 16 := fun c hc => h c (List.mem_cons_of_mem _ hc)
      have hne : b ++ rest.flatten ≠ [] := by
        intro hx
        have : b = [] := (List.append_eq_nil.mp hx).1
        rw [this] at hb
        simp at hb
      rw [List.flatten_cons]
      cases hcons : b ++ rest.flatten with
      | nil => exact absurd hcons hne
      | cons y ys =>
          rw [toBlocks_cons, ← hcons]
          have htake : (b ++ rest.flatten).take 16 = b := by
            rw [← hb]
            exact List.take_left ..
          have hdrop : (b ++ rest.flatten).drop 16 = rest.flatten := by
            rw [← hb]
            exact List.drop_left ..
          rw [htake, hdrop, ih hrest]

/-- Stripping PKCS7 padding from a padded sequence recovers the original. -/
theorem pkcs7Unpad_pad (bs : List Nat) : pkcs7Unpad (pkcs7Pad bs) = bs := by
  have hmod : bs.length % 16 < 16 := Nat.mod_lt _ (by norm_num)
  have hn1 : 1 ≤ 16 - bs.length % 16 := by omega
  have hrep : (List.replicate (16 - bs.length % 16)
      (16 - bs.length % 16)).getLast? = some (16 - bs.length % 16) := by
    cases hcase : 16 - bs.length % 16 with
    | zero => omega
    | succ k =>
        rw [List.replicate_succ']
        rw [List.getLast?_concat]
  have hlast : (pkcs7Pad bs).getLast? = some (16 - bs.length % 16) := by
    rw [pkcs7Pad, List.getLast?_append_of_ne_nil, hrep]
    intro hx
    rw [List.replicate_eq_nil_iff] at hx
    omega
  rw [pkcs7Unpad, hlast]
  change List.take ((pkcs7Pad bs).length - (16 - bs.length % 16))
    (pkcs7Pad bs) = bs
  have hlen : (pkcs7Pad bs).length = bs.length + (16 - bs.length % 16) := by
    simp [pkcs7Pad]
  rw [hlen]
  rw [show bs.length + (16 - bs.length % 16) - (16 - bs.length % 16) =
      bs.length from by omega]
  rw [pkcs7Pad]
  exact List.take_left ..

/-- The padded length is a multiple of 16. -/
theorem pkcs7Pad_length_mod (bs : List Nat) : (pkcs7Pad bs).length % 16 = 0 := by
  have hmod : bs.length % 16 < 16 := Nat.mod_lt _ (by norm_num)
  have hlen : (pkcs7Pad bs).length = bs.length + (16 - bs.length % 16) := by
    simp [pkcs7Pad]
  rw [hlen]
  omega

/-- Padded bytes stay in the byte range (the pad value is at most 16). -/
theorem mem_pkcs7Pad_lt (bs : List Nat) (hb : ∀ x ∈ bs, x < 256) :
    ∀ x ∈ pkcs7Pad bs, x < 256 := by
  intro x hx
  rw [pkcs7Pad, List.mem_append] at hx
  rcases hx with hx | hx
  · exact hb x hx
  · have := List.eq_of_mem_replicate hx
    omega

/-- A padded sequence is never empty. -/
theorem pkcs7Pad_ne_nil (bs : List Nat) : pkcs7Pad bs ≠ [] := by
  have hmod : bs.length % 16 < 16 := Nat.mod_lt _ (by norm_num)
  intro hx
  have := congrArg List.length hx
  simp [pkcs7Pad] at this
  omega

/-- CBC ciphertext blocks of 16-byte blocks are 16 bytes long. -/
theorem mem_cbcEncBlocks_length (C : BlockCipher) (key : List Nat) :
    ∀ (bs : List (List Nat)) (prev : List Nat), prev.length = 16 →
      (∀ b ∈ bs, b.length = 16) →
      ∀ c ∈ cbcEncBlocks C.enc key prev bs, c.length = 16 := by
  intro bs
  induction bs with
  | nil => intro prev _ _ c hc; simp [cbcEncBlocks] at hc
  | cons b rest ih =>
      intro prev hprev hbs c hc
      have hb : b.length = 16 := hbs b (List.mem_cons_self _ _)
      have hxl : (C.enc key (xorBytes prev b)).length = 16 := by
        rw [C.enc_len, length_xorBytes, hprev, hb, Nat.min_self]
      simp only [cbcEncBlocks, List.mem_cons] at hc
      rcases hc with hc | hc
      · rw [hc]; exact hxl
      · exact ih (C.enc key (xorBytes prev b)) hxl
          (fun z hz => hbs z (List.mem_cons_of_mem _ hz)) c hc

/-- CBC ciphertext blocks of byte blocks stay in the byte range. -/
theorem mem_cbcEncBlocks_bytes (C : BlockCipher) (key : List Nat) :
    ∀ (bs : List (List Nat)) (prev : List Nat), (∀ x ∈ prev, x < 256) →
      (∀ b ∈ bs, ∀ x ∈ b, x < 256) →
      ∀ c ∈ cbcEncBlocks C.enc key prev bs, ∀ x ∈ c, x < 256 := by
  intro bs
  induction bs with
  | nil => intro prev _ _ c hc; simp [cbcEncBlocks] at hc
  | cons b rest ih =>
      intro prev hprev hbs c hc
      have hb : ∀ x ∈ b, x < 256 := hbs b (List.mem_cons_self _ _)
      have hxb : ∀ x ∈ C.enc key (xorBytes prev b), x < 256 :=
        C.enc_bytes key (xorBytes prev b) (mem_xorBytes_lt prev b hprev hb)
      simp only [cbcEncBlocks, List.mem_cons] at hc
      rcases hc with hc | hc
      · rw [hc]; exact hxb
      · exact ih (C.enc key (xorBytes prev b)) hxb
          (fun z hz => hbs z (List.mem_cons_of_mem _ hz)) c hc

/-- CBC decryption with the same key and IV inverts CBC encryption. -/
theorem cbcDec_cbcEnc (C : BlockCipher) (key : List Nat) :
    ∀ (bs : List (List Nat)) (prev : List Nat), prev.length = 16 →
      (∀ b ∈ bs, b.length = 16) →
      cbcDecBlocks C.dec key prev (cbcEncBlocks C.enc key prev bs) = bs := by
  intro bs
  induction bs with
  | nil => intro prev _ _; rfl
  | cons b rest ih =>
      intro prev hprev hbs
      have hb : b.length = 16 := hbs b (List.mem_cons_self _ _)
      have hxorlen : (xorBytes prev b).length = 16 := by
        rw [length_xorBytes, hprev, hb, Nat.min_self]
      have henclen : (C.enc key (xorBytes prev b)).length = 16 := by
        rw [C.enc_len]; exact hxorlen
      simp only [cbcEncBlocks, cbcDecBlocks, List.cons.injEq]
      constructor
      · rw [C.dec_enc key (xorBytes prev b) hxorlen]
        exact xorBytes_cancel prev b (by omega)
      · exact ih (C.enc key (xorBytes prev b)) henclen
          (fun z hz => hbs z (List.mem_cons_of_mem _ hz))

/-- Each nibble value is recovered from its lowercase digit character. -/
theorem jsHexVal_digit : ∀ n, n < 16 → jsHexVal (jsHexDigit n) = n := by decide

/-- A produced digit character is accepted as a hex digit. -/
theorem isJsHexDigit_digit : ∀ n, n < 16 → isJsHexDigit (jsHexDigit n) = true := by
  decide

/-- Hex parsing inverts hex printing on byte sequences. -/
theorem jsHexParse_stringify (b : List Nat) (hb : ∀ x ∈ b, x < 256) :
    jsHexParse (jsHexStringify b) = some b := by
  induction b with
  | nil => rfl
  | cons x xs ih =>
      have hx : x < 256 := hb x (List.mem_cons_self _ _)
      have hxs : ∀ y ∈ xs, y < 256 := fun y hy => hb y (List.mem_cons_of_mem _ hy)
      have h1 : x / 16 < 16 := by omega
      have h2 : x % 16 < 16 := by omega
      simp only [jsHexStringify, jsHexParse, isJsHexDigit_digit _ h1,
        isJsHexDigit_digit _ h2, Bool.and_self, if_pos, ih hxs,
        Option.map_some', jsHexVal_digit _ h1, jsHexVal_digit _ h2]
      rw [show x / 16 * 16 + x % 16 = x from by omega]

/-- Printing a non-empty byte sequence gives a non-empty string. -/
theorem jsHexStringify_ne_nil (b : List Nat) (h : b ≠ []) :
    jsHexStringify b ≠ [] := by
  cases b with
  | nil => exact absurd rfl h
  | cons x xs => simp [jsHexStringify]

/-- Evaluating `decryptText` once the hex layer has parsed. -/
theorem decryptText_parse (C : BlockCipher) (kdf : List Nat → List Nat → List Nat)
    (hex k combined : List Nat) (hhex : hex ≠ []) (hk : k ≠ [])
    (hparse : jsHexParse hex = some combined) :
    decryptText C kdf hex k =
      if pkcs7Unpad ((cbcDecBlocks C.dec (kdf k (combined.take 16))
          ((combined.drop 16).take 16) (toBlocks (combined.drop 32))).flatten) = []
      then .error .decryptionFailed
      else .ok (pkcs7Unpad ((cbcDecBlocks C.dec (kdf k (combined.take 16))
          ((combined.drop 16).take 16) (toBlocks (combined.drop 32))).flatten)) := by
  rw [decryptText, if_neg (by simp [hhex, hk]), hparse]

/-- Claim C6 (amended): for every non-empty plaintext and non-empty
passphrase, with the 16-byte salt and IV that `encryptText` draws and any
block cipher and key derivation, decrypting the result of encrypting `p`
under `k` with the same passphrase `k` returns exactly `p`. -/
theorem codec_round_trip (C : BlockCipher) (kdf : List Nat → List Nat → List Nat)
    (p k salt iv : List Nat) (hp : p ≠ []) (hk : k ≠ [])
    (hpb : ∀ x ∈ p, x < 256)
    (hs : salt.length = 16) (hsb : ∀ x ∈ salt, x < 256)
    (hiv : iv.length = 16) (hivb : ∀ x ∈ iv, x < 256) :
    (encryptText C kdf p k salt iv).bind (fun c => decryptText C kdf c k) =
      .ok p := by
  have hctbytes : ∀ x ∈ (cbcEncBlocks C.enc (kdf k salt) iv
      (toBlocks (pkcs7Pad p))).flatten, x < 256 := by
    intro x hx
    rw [List.mem_flatten] at hx
    obtain ⟨c, hc, hxc⟩ := hx
    refine mem_cbcEncBlocks_bytes C (kdf k salt) (toBlocks (pkcs7Pad p)) iv
      hivb ?_ c hc x hxc
    intro bq hbq y hy
    exact mem_pkcs7Pad_lt p hpb y (mem_toBlocks_subset (pkcs7Pad p) bq hbq y hy)
  have hcombbytes : ∀ x ∈ salt ++ iv ++ (cbcEncBlocks C.enc (kdf k salt) iv
      (toBlocks (pkcs7Pad p))).flatten, x < 256 := by
    intro x hx
    simp only [List.mem_append] at hx
    rcases hx with (hx | hx) | hx
    · exact hsb x hx
    · exact hivb x hx
    · exact hctbytes x hx
  have hparse := jsHexParse_stringify _ hcombbytes
  have hsalt_ne : salt ≠ [] := by
    intro h0
    rw [h0] at hs
    simp at hs
  have hnn : jsHexStringify (salt ++ iv ++ (cbcEncBlocks C.enc (kdf k salt) iv
      (toBlocks (pkcs7Pad p))).flatten) ≠ [] := by
    apply jsHexStringify_ne_nil
    intro hx
    rw [List.append_assoc] at hx
    exact hsalt_ne (List.append_eq_nil.mp hx).1
  have htake : (salt ++ iv ++ (cbcEncBlocks C.enc (kdf k salt) iv
      (toBlocks (pkcs7Pad p))).flatten).take 16 = salt := by
    rw [List.append_assoc, ← hs]
    exact List.take_left ..
  have hdrop16 : (salt ++ iv ++ (cbcEncBlocks C.enc (kdf k salt) iv
      (toBlocks (pkcs7Pad p))).flatten).drop 16 =
      iv ++ (cbcEncBlocks C.enc (kdf k salt) iv
        (toBlocks (pkcs7Pad p))).flatten := by
    rw [List.append_assoc, ← hs]
    exact List.drop_left ..
  have htakeiv : (iv ++ (cbcEncBlocks C.enc (kdf k salt) iv
      (toBlocks (pkcs7Pad p))).flatten).take 16 = iv := by
    rw [← hiv]
    exact List.take_left ..
  have hdrop32 : (salt ++ iv ++ (cbcEncBlocks C.enc (kdf k salt) iv
      (toBlocks (pkcs7Pad p))).flatten).drop 32 =
      (cbcEncBlocks C.enc (kdf k salt) iv (toBlocks (pkcs7Pad p))).flatten := by
    rw [show (32 : Nat) = (salt ++ iv).length from by simp [hs, hiv]]
    exact List.drop_left ..
  have hblocks16 : ∀ b ∈ toBlocks (pkcs7Pad p), b.length = 16 :=
    mem_toBlocks_length16 _ (pkcs7Pad_length_mod p)
  have hctblocks : toBlocks ((cbcEncBlocks C.enc (kdf k salt) iv
      (toBlocks (pkcs7Pad p))).flatten) =
      cbcEncBlocks C.enc (kdf k salt) iv (toBlocks (pkcs7Pad p)) :=
    toBlocks_flatten _ (mem_cbcEncBlocks_length C (kdf k salt) _ iv hiv hblocks16)
  rw [encryptText, if_neg (by simp [hp, hk])]
  show decryptText C kdf (jsHexStringify (salt ++ iv ++ (cbcEncBlocks C.enc
    (kdf k salt) iv (toBlocks (pkcs7Pad p))).flatten)) k = .ok p
  rw [decryptText_parse C kdf _ k _ hnn hk hparse, htake, hdrop16, htakeiv,
    hdrop32, hctblocks, cbcDec_cbcEnc C (kdf k salt) (toBlocks (pkcs7Pad p))
      iv hiv hblocks16, flatten_toBlocks, pkcs7Unpad_pad, if_neg hp]

/-- Counterexample to claim C6 as stated: for the empty plaintext (with any
block cipher, e.g. the identity instance) the round trip does not return the
plaintext — `encryptText` already rejects the input, because the source
throws on falsy `text`. -/
theorem codec_round_trip_counterexample :
    encryptText idCipher constKdf [] [107] (List.replicate 16 48)
      (List.replicate 16 48) = .error .inputRequired ∧
    (encryptText idCipher constKdf [] [107] (List.replicate 16 48)
      (List.replicate 16 48)).bind
        (fun c => decryptText idCipher constKdf c [107]) ≠ .ok [] := by
  refine ⟨rfl, ?_⟩
  intro h
  cases h

/-- Witness for `codec_round_trip` at a concrete plaintext, passphrase, salt,
IV, block cipher and key derivation. -/
theorem codec_round_trip_witness :
    (encryptText idCipher constKdf [104, 105] [107] (List.replicate 16 1)
      (List.replicate 16 2)).bind
        (fun c => decryptText idCipher constKdf c [107]) = .ok [104, 105] :=
  codec_round_trip idCipher constKdf [104, 105] [107] (List.replicate 16 1)
    (List.replicate 16 2) (by decide) (by decide) (by decide) (by decide)
    (by decide) (by decide) (by decide)

/-- Claim C5 (amended): `decryptText` fails when the text or passphrase is
empty, and a successful decryption always returns a non-empty result; beyond
this emptiness check (and the UTF-8 wellformedness check of the source) no
integrity validation exists, so corrupted bytes or a wrong passphrase can
still decrypt successfully to a non-original result (see the
counterexample). -/
theorem decrypt_fails_only_on_empty (C : BlockCipher)
    (kdf : List Nat → List Nat → List Nat) (c k res : List Nat) :
    (decryptText C kdf c k = .ok res → res ≠ [] ∧ c ≠ [] ∧ k ≠ []) ∧
    (c = [] ∨ k = [] → decryptText C kdf c k = .error .inputRequired) := by
  constructor
  · intro h
    by_cases hck : c = [] ∨ k = []
    · rw [decryptText, if_pos hck] at h
      cases h
    · push_neg at hck
      refine ⟨?_, hck.1, hck.2⟩
      cases hpr : jsHexParse c with
      | none =>
          rw [decryptText, if_neg (not_or.mpr ⟨hck.1, hck.2⟩), hpr] at h
          cases h
      | some combined =>
          rw [decryptText_parse C kdf c k combined hck.1 hck.2 hpr] at h
          by_cases hpl : pkcs7Unpad ((cbcDecBlocks C.dec
              (kdf k (combined.take 16)) ((combined.drop 16).take 16)
              (toBlocks (combined.drop 32))).flatten) = []
          · rw [if_pos hpl] at h
            cases h
          · rw [if_neg hpl] at h
            rw [← Except.ok.inj h]
            exact hpl
  · intro hck
    rw [decryptText, if_pos hck]

/-- Counterexample to claim C5 as stated: decrypting a corrupted ciphertext
with the correct passphrase does not fail — it succeeds and returns bytes
different from the original plaintext, because CBC with the library's
PKCS7 stripping performs no integrity validation. -/
theorem decrypt_garbage_counterexample :
    encryptText idCipher constKdf (List.replicate 15 65) [107]
      (List.replicate 16 48) (List.replicate 16 48) = .ok c5GoodHex ∧
    c5TamperedHex = c5GoodHex.set 65 48 ∧
    c5TamperedHex ≠ c5GoodHex ∧
    decryptText idCipher constKdf c5TamperedHex [107] =
      .ok (64 :: List.replicate 14 65) ∧
    64 :: List.replicate 14 65 ≠ List.replicate 15 65 := by
  exact ⟨by rfl, rfl, by decide, by rfl, by decide⟩

/-- Witness for `decrypt_fails_only_on_empty`: a successful concrete
decryption has non-empty result and inputs, and the empty input fails. -/
theorem decrypt_fails_only_on_empty_witness :
    (List.replicate 15 65 ≠ ([] : List Nat) ∧ c5GoodHex ≠ [] ∧
      ([107] : List Nat) ≠ []) ∧
    decryptText idCipher constKdf [] [107] = .error .inputRequired := by
  have h1 := decrypt_fails_only_on_empty idCipher constKdf c5GoodHex [107]
    (List.replicate 15 65)
  have h2 := decrypt_fails_only_on_empty idCipher constKdf [] [107] []
  exact ⟨h1.1 (by rfl), h2.2 (Or.inl rfl)⟩
